import Mathlib

/-!
Shallow embedding of the slipstream-go DNS-tunnel core, together with
machine-checked statements about its specification.

Bytes are modelled as `Nat` (with explicit `% 256` where the Go code casts),
byte strings as `List Nat`, Go maps as association lists with distinct keys,
Go channels as FIFO `List`s, and `time.Time` as a `Nat` second count passed
in explicitly.  A Go run-time panic (out-of-range slice index) is modelled
as `Except.error ()`; every other path is `Except.ok`.
-/

/-- Association-list lookup, mirroring a Go map read `m[k]`. -/
def lookupKV {κ α : Type} [BEq κ] (m : List (κ × α)) (k : κ) : Option α :=
  (m.find? (fun p => p.1 == k)).map Prod.snd

/-- Association-list write `m[k] = v`: replace the binding if the key is
present, otherwise append a fresh binding. -/
def insertKV {κ α : Type} [BEq κ] (m : List (κ × α)) (k : κ) (v : α) : List (κ × α) :=
  if (m.find? (fun p => p.1 == k)).isSome then
    m.map (fun p => if p.1 == k then (k, v) else p)
  else
    m ++ [(k, v)]

/-- Association-list delete, mirroring Go `delete(m, k)`. -/
def eraseKV {κ α : Type} [BEq κ] (m : List (κ × α)) (k : κ) : List (κ × α) :=
  m.filter (fun p => !(p.1 == k))

namespace protocol

/-- Header: [PacketID:2][TotalChunks:1][SeqNum:1] = 4 bytes
(src/internal/protocol/fragment.go, `FragHeaderLen`). -/
def FragHeaderLen : Nat := 4

/-- Maximum payload bytes per chunk (src/internal/protocol/fragment.go,
`MaxChunkSize = 124`). -/
def MaxChunkSize : Nat := 124

/-- Per-`packet_id` reassembly record (src/internal/protocol/fragment.go,
`pendingPacket`).  A `none` slot is a Go `nil` chunk slice. -/
structure PendingPacket where
  Chunks : List (Option (List Nat))
  Total : Nat
  Received : Nat
  CreatedAt : Nat
deriving Repr, DecidableEq

/-- Protocol-side reassembler state (src/internal/protocol/fragment.go,
`Reassembler`): the `pending` map and the `completed` duplicate-suppression
map from packet id to completion time. -/
structure Reassembler where
  pending : List (Nat × PendingPacket)
  completed : List (Nat × Nat)
deriving Repr, DecidableEq

/-- A fresh reassembler (src/internal/protocol/fragment.go, `NewReassembler`). -/
def NewReassembler : Reassembler := ⟨[], []⟩

/-- Go `append(full, chunk...)` folded over the chunk slots: a `none` (Go nil)
slot contributes nothing. -/
def chunksConcat (cs : List (Option (List Nat))) : List Nat :=
  cs.foldl (fun acc c => acc ++ c.getD []) []

/-- Shared tail of `IngestChunk` after the store step: write the (possibly
mutated) pending packet back through its map pointer, then test completion.
The Go function returns a nil slice when nothing was appended, which callers
treat as "no packet"; that is the `full.isEmpty` test. -/
def finishIngest (completed1 : List (Nat × Nat)) (pending1 : List (Nat × PendingPacket))
    (packetID now : Nat) (pkt1 : PendingPacket) :
    Except Unit (Reassembler × Option (List Nat)) :=
  let pending2 := insertKV pending1 packetID pkt1
  if pkt1.Received = pkt1.Total then
    let full := chunksConcat pkt1.Chunks
    .ok (⟨eraseKV pending2 packetID, insertKV completed1 packetID now⟩,
         if full.isEmpty then none else some full)
  else
    .ok (⟨pending2, completed1⟩, none)

/-- `Reassembler.IngestChunk` (src/internal/protocol/fragment.go lines 57-115).
Returns `Except.error ()` exactly where the Go code panics: the expression
`pkt.Chunks[seq]`, guarded only by `seq < total` with `total` taken from the
incoming header while `pkt.Chunks` has the length of the total of the first
chunk seen for that packet id. -/
def IngestChunk (r : Reassembler) (now : Nat) (data : List Nat) :
    Except Unit (Reassembler × Option (List Nat)) :=
  match data with
  | b0 :: b1 :: b2 :: b3 :: payload =>
    let packetID := b0 * 256 + b1
    let total := b2
    let seq := b3
    if (lookupKV r.completed packetID).isSome then
      .ok (r, none)
    else
      let completed1 := r.completed.filter (fun e => !(decide (now - e.2 > 30)))
      let lookedUp :=
        match lookupKV r.pending packetID with
        | some p => (p, r.pending)
        | none =>
          let base := if r.pending.length > 1000 then [] else r.pending
          let p : PendingPacket := ⟨List.replicate total none, total, 0, now⟩
          (p, insertKV base packetID p)
      let pkt0 := lookedUp.1
      let pending1 := lookedUp.2
      if seq < total then
        match pkt0.Chunks[seq]? with
        | none => .error ()
        | some slot =>
          let pkt1 :=
            if slot.isNone then
              { pkt0 with Chunks := pkt0.Chunks.set seq (some payload),
                          Received := pkt0.Received + 1 }
            else pkt0
          finishIngest completed1 pending1 packetID now pkt1
      else
        finishIngest completed1 pending1 packetID now pkt0
  | _ => .ok (r, none)

/-- `FragmentPacket` (src/internal/protocol/fragment.go lines 118-155):
split `data` into chunks of at most `MaxChunkSize` payload bytes, each with
the 4-byte header; `totalChunks` is clamped at 255. -/
def FragmentPacket (packetID : Nat) (data : List Nat) : List (List Nat) :=
  let totalLen := data.length
  let totalChunks0 := (totalLen + MaxChunkSize - 1) / MaxChunkSize
  let totalChunks := if totalChunks0 > 255 then 255 else totalChunks0
  (List.range totalChunks).map (fun i =>
    let start := i * MaxChunkSize
    let endI := if start + MaxChunkSize > totalLen then totalLen else start + MaxChunkSize
    (packetID / 256 % 256) :: (packetID % 256) :: (totalChunks % 256) :: (i % 256) ::
      ((data.drop start).take (endI - start)))

/-- Ingest a list of chunks one call at a time, collecting each call's
return value; a panic anywhere aborts the run. -/
def ingestAll (r : Reassembler) (now : Nat) :
    List (List Nat) → Except Unit (Reassembler × List (Option (List Nat)))
  | [] => .ok (r, [])
  | c :: cs =>
    match IngestChunk r now c with
    | .error e => .error e
    | .ok (r', out) =>
      match ingestAll r' now cs with
      | .error e => .error e
      | .ok (r'', outs) => .ok (r'', out :: outs)

end protocol

namespace server

/-- Per-`packet_id` reassembly record (src/internal/server/reassembly.go,
`PendingPacket`). -/
structure PendingPacket where
  Chunks : List (Option (List Nat))
  Total : Nat
  Received : Nat
  CreatedAt : Nat
deriving Repr, DecidableEq

/-- Server-side per-session reassembler (src/internal/server/reassembly.go,
`Reassembler`): only a `pending` map — this version has no completed set. -/
structure Reassembler where
  pending : List (Nat × PendingPacket)
deriving Repr, DecidableEq

/-- A fresh server reassembler (src/internal/server/reassembly.go,
`NewReassembler`). -/
def NewReassembler : Reassembler := ⟨[]⟩

/-- Shared tail of the server `IngestChunk` after the store step. -/
def finishIngest (pending1 : List (Nat × PendingPacket)) (packetID : Nat)
    (pkt1 : PendingPacket) : Except Unit (Reassembler × Option (List Nat)) :=
  let pending2 := insertKV pending1 packetID pkt1
  if pkt1.Received = pkt1.Total then
    let full := protocol.chunksConcat pkt1.Chunks
    .ok (⟨eraseKV pending2 packetID⟩, if full.isEmpty then none else some full)
  else
    .ok (⟨pending2⟩, none)

/-- `Reassembler.IngestChunk` (src/internal/server/reassembly.go lines 28-70).
Identical to the protocol version except that there is no completed-set
check, cleanup or insertion.  `Except.error ()` marks the Go panic at
`pkt.Chunks[seq]`. -/
def IngestChunk (r : Reassembler) (now : Nat) (data : List Nat) :
    Except Unit (Reassembler × Option (List Nat)) :=
  match data with
  | b0 :: b1 :: b2 :: b3 :: payload =>
    let packetID := b0 * 256 + b1
    let total := b2
    let seq := b3
    let lookedUp :=
      match lookupKV r.pending packetID with
      | some p => (p, r.pending)
      | none =>
        let base := if r.pending.length > 1000 then [] else r.pending
        let p : PendingPacket := ⟨List.replicate total none, total, 0, now⟩
        (p, insertKV base packetID p)
    let pkt0 := lookedUp.1
    let pending1 := lookedUp.2
    if seq < total then
      match pkt0.Chunks[seq]? with
      | none => .error ()
      | some slot =>
        let pkt1 :=
          if slot.isNone then
            { pkt0 with Chunks := pkt0.Chunks.set seq (some payload),
                        Received := pkt0.Received + 1 }
          else pkt0
        finishIngest pending1 packetID pkt1
    else
      finishIngest pending1 packetID pkt0
  | _ => .ok (r, none)

end server

/-! ### ASCII string helpers

The Go code uses `strings.ToLower`, `strings.ToUpper`, `strings.HasSuffix`,
`strings.HasPrefix`, `strings.Join` and `dns.SplitDomainName`.  They are
embedded here on `List Char` (the inputs in question are plain ASCII DNS
names; `dns.SplitDomainName` escape handling is not exercised). -/

/-- ASCII lower-casing of one character (`strings.ToLower` on ASCII input). -/
def lowerChar (c : Char) : Char :=
  if 'A' ≤ c ∧ c ≤ 'Z' then Char.ofNat (c.toNat + 32) else c

/-- ASCII upper-casing of one character (`strings.ToUpper` on ASCII input). -/
def upperChar (c : Char) : Char :=
  if 'a' ≤ c ∧ c ≤ 'z' then Char.ofNat (c.toNat - 32) else c

/-- `strings.ToLower` on ASCII input. -/
def lowerStr (s : String) : String := ⟨s.toList.map lowerChar⟩

/-- `strings.ToUpper` on ASCII input. -/
def upperStr (s : String) : String := ⟨s.toList.map upperChar⟩

/-- `strings.HasSuffix s suf`. -/
def strEndsW (s suf : String) : Bool := suf.toList.isSuffixOf s.toList

/-- `strings.HasPrefix s pre`. -/
def strStartsW (s p : String) : Bool := p.toList.isPrefixOf s.toList

/-- `strings.Join labels ""`. -/
def joinStr (l : List String) : String := ⟨l.foldr (fun s acc => s.toList ++ acc) []⟩

/-- Split a character list at every `'.'`. -/
def splitOnDotL : List Char → List (List Char)
  | [] => [[]]
  | c :: rest =>
    match splitOnDotL rest with
    | [] => [[]]
    | g :: gs => if c = '.' then [] :: g :: gs else (c :: g) :: gs

/-- `dns.SplitDomainName`: the labels of a domain name, the trailing root
dot removed; `""` and `"."` give no labels. -/
def splitDomainName (s : String) : List String :=
  let cs := s.toList
  let cs2 := if cs.getLast? = some '.' then cs.dropLast else cs
  if cs2 = [] then [] else (splitOnDotL cs2).map (fun g => (⟨g⟩ : String))

/-! ### Base32 (RFC 4648, uppercase, no padding) and base64 codecs -/

/-- The RFC 4648 base32 alphabet. -/
def b32Alphabet : List Char := "ABCDEFGHIJKLMNOPQRSTUVWXYZ234567".toList

/-- Character for one 5-bit group. -/
def b32Char (v : Nat) : Char := b32Alphabet.getD v 'A'

/-- Encode one input group of 1-5 bytes as `nChars` base32 characters
(big-endian bit order, as `encoding/base32` does). -/
def b32EncGroup (bs : List Nat) (nChars : Nat) : List Char :=
  let v := (bs ++ List.replicate (5 - bs.length) 0).foldl (fun a b => a * 256 + b % 256) 0
  (List.range nChars).map (fun i => b32Char (v / 2 ^ (35 - 5 * i) % 32))

/-- `base32.StdEncoding.WithPadding(base32.NoPadding).EncodeToString`,
as a character list. -/
def base32EncodeNoPadL : List Nat → List Char
  | [] => []
  | b1 :: b2 :: b3 :: b4 :: b5 :: rest =>
    b32EncGroup [b1, b2, b3, b4, b5] 8 ++ base32EncodeNoPadL rest
  | bs => b32EncGroup bs (match bs.length with | 1 => 2 | 2 => 4 | 3 => 5 | _ => 7)

/-- `base32.StdEncoding.WithPadding(base32.NoPadding).EncodeToString`. -/
def base32EncodeNoPad (bs : List Nat) : String := ⟨base32EncodeNoPadL bs⟩

/-- 5-bit value of a base32 character, `none` when the character is not in
the alphabet. -/
def b32Val (c : Char) : Option Nat := b32Alphabet.findIdx? (fun a => a == c)

/-- Decode one group of 5-bit values (the final group may hold 2, 4, 5 or 7
values; the spare low bits are discarded). -/
def b32DecGroup (vs : List Nat) (nBytes : Nat) : List Nat :=
  let v := (vs ++ List.replicate (8 - vs.length) 0).foldl (fun a b => a * 32 + b % 32) 0
  (List.range nBytes).map (fun i => v / 2 ^ (32 - 8 * i) % 256)

/-- Map every character of a candidate base32 string to its 5-bit value. -/
def b32Vals : List Char → Option (List Nat)
  | [] => some []
  | c :: cs =>
    match b32Val c, b32Vals cs with
    | some v, some vs => some (v :: vs)
    | _, _ => none

/-- Group 5-bit values into bytes; a final group of 1, 3 or 6 values is an
invalid no-padding length. -/
def b32Assemble : List Nat → Option (List Nat)
  | [] => some []
  | v1 :: v2 :: v3 :: v4 :: v5 :: v6 :: v7 :: v8 :: rest =>
    (b32Assemble rest).map (fun bs => b32DecGroup [v1, v2, v3, v4, v5, v6, v7, v8] 5 ++ bs)
  | [v1, v2] => some (b32DecGroup [v1, v2] 1)
  | [v1, v2, v3, v4] => some (b32DecGroup [v1, v2, v3, v4] 2)
  | [v1, v2, v3, v4, v5] => some (b32DecGroup [v1, v2, v3, v4, v5] 3)
  | [v1, v2, v3, v4, v5, v6, v7] => some (b32DecGroup [v1, v2, v3, v4, v5, v6, v7] 4)
  | _ => none

/-- `base32.StdEncoding.WithPadding(base32.NoPadding).DecodeString`:
`none` on an alphabet or length error. -/
def base32DecodeNoPad (s : String) : Option (List Nat) :=
  match b32Vals s.toList with
  | some vs => b32Assemble vs
  | none => none

/-- The standard base64 alphabet. -/
def b64Alphabet : List Char :=
  "ABCDEFGHIJKLMNOPQRSTUVWXYZabcdefghijklmnopqrstuvwxyz0123456789+/".toList

/-- Character for one 6-bit group. -/
def b64Char (v : Nat) : Char := b64Alphabet.getD v 'A'

/-- `base64.StdEncoding.EncodeToString`, as a character list (with `'='`
padding). -/
def base64EncodeL : List Nat → List Char
  | [] => []
  | b1 :: b2 :: b3 :: rest =>
    let v := (b1 % 256) * 65536 + (b2 % 256) * 256 + b3 % 256
    b64Char (v / 262144) :: b64Char (v / 4096 % 64) :: b64Char (v / 64 % 64) ::
      b64Char (v % 64) :: base64EncodeL rest
  | [b1] =>
    let v := (b1 % 256) * 16
    [b64Char (v / 64), b64Char (v % 64), '=', '=']
  | [b1, b2] =>
    let v := ((b1 % 256) * 256 + b2 % 256) * 4
    [b64Char (v / 4096), b64Char (v / 64 % 64), b64Char (v % 64), '=']

/-- `base64.StdEncoding.EncodeToString`. -/
def base64Encode (bs : List Nat) : String := ⟨base64EncodeL bs⟩

namespace server

/-- The per-session state the DNS handler touches: the upstream reassembler
and the downstream fragment FIFO (src/internal/server/session.go, `Session`;
the legacy `Queue` and the timestamps play no part here). -/
structure SessSt where
  reassembler : Reassembler
  fragQueue : List (List Nat)
deriving Repr, DecidableEq

/-- A freshly created session (src/internal/server/session.go,
`SessionManager.GetOrCreate`, miss path): new reassembler, empty queue. -/
def freshSession : SessSt := ⟨NewReassembler, []⟩

/-- `SessionManager.GetOrCreate`: return the existing session and the
unchanged map, or create and register a fresh one.  (The go-cache TTL
refresh does not change the session contents and is not modelled.) -/
def getOrCreate (sessions : List (String × SessSt)) (id : String) :
    SessSt × List (String × SessSt) :=
  match lookupKV sessions id with
  | some s => (s, sessions)
  | none => (freshSession, sessions ++ [(id, freshSession)])

/-- A DNS reply as far as the handler shapes it: the response code
(0 = NOERROR, 5 = REFUSED) and the TXT strings of the answer records,
in order. -/
structure DNSReply where
  rcode : Nat
  answers : List String
deriving Repr, DecidableEq

/-- Outcome of one `HandleDNS` call: the session map afterwards, the reply
written (or `none` when the handler returns without `WriteMsg`), and the
packets handed to `Injector.InjectPacket`. -/
structure HandleResult where
  sessions : List (String × SessSt)
  reply : Option DNSReply
  injected : List (List Nat)
deriving Repr, DecidableEq

/-- The fragment-draining loop of `HandleDNS` (src/internal/server/
dns_handler.go lines 140-154): dequeue until `maxFrags` fragments are
packed or the queue is empty; each fragment becomes one base64 TXT string.
Returns the answer strings and the remaining queue. -/
def drainFrags : Nat → List (List Nat) → List String × List (List Nat)
  | 0, q => ([], q)
  | _ + 1, [] => ([], [])
  | n + 1, f :: q =>
    let r := drainFrags n q
    (base64Encode f :: r.1, r.2)

/-- `DNSHandler.HandleDNS` (src/internal/server/dns_handler.go lines 23-161).
Inputs: the registered domain list (`AllowedDomains`; a Go map whose
iteration order is modelled by the list order — the claims below depend
only on membership), `MaxFragsPerResponse`, the session map, the message's
question count, the first question's name, and the current time.
`Except.error ()` propagates a reassembler panic. -/
def HandleDNS (allowed : List String) (maxFragsCfg : Nat)
    (sessions : List (String × SessSt)) (questionCount : Nat) (qName : String)
    (now : Nat) : Except Unit HandleResult :=
  if questionCount = 0 then .ok ⟨sessions, none, []⟩ else
  let labels := splitDomainName qName
  if labels.length < 3 then .ok ⟨sessions, none, []⟩ else
  let qNameLower := lowerStr qName
  let matched := allowed.find? (fun dom =>
    strEndsW qNameLower ("." ++ lowerStr dom ++ ".") || qNameLower == lowerStr dom ++ ".")
  match matched with
  | none => .ok ⟨sessions, some ⟨5, []⟩, []⟩
  | some matchedDomain =>
    let domainLabelCount := (splitDomainName matchedDomain).length
    let minLabels := 2 + domainLabelCount
    if labels.length < minLabels then .ok ⟨sessions, none, []⟩ else
    let sessionIdx := labels.length - domainLabelCount - 1
    let sessionID := lowerStr (labels.getD sessionIdx "")
    let dataLabel := joinStr (labels.take sessionIdx)
    let got := getOrCreate sessions sessionID
    let sess0 := got.1
    let sessions1 := got.2
    let step : Except Unit (SessSt × List (List Nat)) :=
      if !(strStartsW (lowerStr dataLabel) "poll") then
        match base32DecodeNoPad (upperStr dataLabel) with
        | some raw =>
          match IngestChunk sess0.reassembler now raw with
          | .error e => .error e
          | .ok (re, some full) => .ok (⟨re, sess0.fragQueue⟩, [full])
          | .ok (re, none) => .ok (⟨re, sess0.fragQueue⟩, [])
        | none => .ok (sess0, [])
      else .ok (sess0, [])
    match step with
    | .error e => .error e
    | .ok (sess1, injected) =>
      let maxFrags := if maxFragsCfg = 0 then 10 else maxFragsCfg
      let drained := drainFrags maxFrags sess1.fragQueue
      let sess2 : SessSt := ⟨sess1.reassembler, drained.2⟩
      .ok ⟨insertKV sessions1 sessionID sess2, some ⟨0, drained.1⟩, injected⟩

/-- Capacity of a session's `FragQueue` channel
(src/internal/server/session.go: `make(chan []byte, 4000)`). -/
def fragQueueCap : Nat := 4000

/-- The enqueue loop of `VirtualConn.WriteTo` (src/internal/server/
virtual_conn.go lines 71-79): push fragments one by one; the first full
queue drops the fragment and makes the call return 0 immediately. -/
def writeToLoop (queue : List (List Nat)) (plen : Nat) :
    List (List Nat) → List (List Nat) × Nat
  | [] => (queue, plen)
  | f :: fs =>
    if queue.length < fragQueueCap then writeToLoop (queue ++ [f]) plen fs
    else (queue, 0)

/-- `VirtualConn.WriteTo` for a `SessionAddr` peer (src/internal/server/
virtual_conn.go lines 55-82), viewed at the level of the target session's
`FragQueue`: fragment the datagram, then enqueue each fragment once.
Returns the queue afterwards and the byte count reported to QUIC. -/
def VirtualConnWriteTo (sessQueue : List (List Nat)) (packetID : Nat)
    (p : List Nat) : List (List Nat) × Nat :=
  writeToLoop sessQueue p.length (protocol.FragmentPacket packetID p)

end server

namespace protocol

/-- The bytes `binary.BigEndian.PutUint32` writes for the poll nonce
(src/internal/protocol/dns_conn.go, `sendPoll`). -/
def nonceBytes (x : Nat) : List Nat :=
  [x / 2 ^ 24 % 256, x / 2 ^ 16 % 256, x / 2 ^ 8 % 256, x % 256]

/-- The QNAME built by `DnsPacketConn.sendPoll` (src/internal/protocol/
dns_conn.go lines 295-309): `poll.<nonce>.<session>.<domain>.` with a
base32, no-padding nonce from 4 random bytes. -/
def sendPollQname (x : Nat) (sessionID domain : String) : String :=
  "poll." ++ base32EncodeNoPad (nonceBytes x) ++ "." ++ sessionID ++ "." ++ domain ++ "."

/-- The QNAME built by the sibling copy of `DnsPacketConn.sendPoll`
(src/internal/protocol/dns_conn.go lines 562-570, also
src/unnamed/part_003): `poll.<session>.<domain>.` — no nonce label. -/
def sendPollQnameAlt (sessionID domain : String) : String :=
  "poll." ++ sessionID ++ "." ++ domain ++ "."

end protocol

namespace protocol

/-- Number of chunks `FragmentPacket` computes before clamping:
`ceil(len / MaxChunkSize)`. -/
def numChunks (d : List Nat) : Nat := (d.length + MaxChunkSize - 1) / MaxChunkSize

/-- Payload slice of chunk `i`: bytes `[i*124, i*124+124)` of the datagram. -/
def sliceOf (d : List Nat) (i : Nat) : List Nat :=
  (d.drop (i * MaxChunkSize)).take MaxChunkSize

/-- The chunk `FragmentPacket` builds at index `j` when the unclamped chunk
count is `n`. -/
def chunkFor (pid n : Nat) (d : List Nat) (j : Nat) : List Nat :=
  (pid / 256 % 256) :: (pid % 256) :: (n % 256) :: (j % 256) :: sliceOf d j

/-- The `seq` header byte of a chunk (byte 3). -/
def seqOf (c : List Nat) : Nat := c.getD 3 0

/-- The pending packet present after the chunks with `seq ∈ T` of an
`n`-chunk fragmentation of `d` have been ingested at time `now`. -/
def pktFor (n : Nat) (d : List Nat) (now : Nat) (T : List Nat) : PendingPacket :=
  ⟨(List.range n).map (fun i => if i ∈ T then some (sliceOf d i) else none),
   n, T.length, now⟩

/-- The reassembler state in the middle of reassembling one packet `pid`:
an empty completed set and the single pending entry `pktFor n d now T`. -/
def stateFor (pid n : Nat) (d : List Nat) (now : Nat) (T : List Nat) : Reassembler :=
  ⟨[(pid, pktFor n d now T)], []⟩

end protocol

namespace protocol

theorem length_FragmentPacket (pid : Nat) (d : List Nat) :
    (FragmentPacket pid d).length =
      if (d.length + 123) / 124 > 255 then 255 else (d.length + 123) / 124 := by
  simp [FragmentPacket, MaxChunkSize]

theorem FragmentPacket_eq_noclamp (pid : Nat) (d : List Nat) (h : d.length ≤ 31620) :
    FragmentPacket pid d = (List.range (numChunks d)).map (chunkFor pid (numChunks d) d) := by
  dsimp only [FragmentPacket, chunkFor, numChunks, MaxChunkSize]
  rw [if_neg (by omega)]
  apply List.map_congr_left
  intro i hi
  simp only [List.mem_range] at hi
  have hstart : i * 124 < d.length := by
    by_contra hc
    push_neg at hc
    have : (d.length + 123) / 124 ≤ i := Nat.div_le_of_le_mul (by omega)
    omega
  congr 1
  by_cases hfull : i * 124 + 124 ≤ d.length
  · rw [if_neg (by omega)]
    have h2 : i * 124 + 124 - i * 124 = 124 := by omega
    rw [h2]
    rfl
  · rw [if_pos (by omega)]
    dsimp only [sliceOf, MaxChunkSize]
    rw [List.take_of_length_le (by simp), List.take_of_length_le (by simp; omega)]

theorem FragmentPacket_eq_clamp (pid : Nat) (d : List Nat) (h : 31620 < d.length) :
    FragmentPacket pid d = (List.range 255).map (chunkFor pid 255 d) := by
  dsimp only [FragmentPacket, chunkFor, MaxChunkSize]
  rw [if_pos (by omega)]
  apply List.map_congr_left
  intro i hi
  simp only [List.mem_range] at hi
  have hfull : i * 124 + 124 ≤ d.length := by nlinarith
  congr 1
  rw [if_neg (by omega)]
  have h2 : i * 124 + 124 - i * 124 = 124 := by omega
  rw [h2]
  rfl

theorem join_slices : ∀ (n : Nat) (e : List Nat),
    ((List.range n).map (sliceOf e)).flatten = e.take (n * 124) := by
  intro n
  induction n with
  | zero => intro e; simp
  | succ m ih =>
    intro e
    rw [List.range_succ_eq_map]
    simp only [List.map_cons, List.map_map, List.flatten_cons]
    have hc : (sliceOf e ∘ Nat.succ) = sliceOf (e.drop 124) := by
      funext i
      dsimp only [Function.comp, sliceOf, MaxChunkSize]
      rw [List.drop_drop]
      congr 2
      omega
    rw [hc, ih (e.drop 124)]
    have h0 : sliceOf e 0 = e.take 124 := by
      dsimp only [sliceOf, MaxChunkSize]
      rw [Nat.zero_mul, List.drop_zero]
    rw [h0, ← List.take_add]
    congr 1
    omega

end protocol

namespace server

theorem writeToLoop_all : ∀ (frags queue : List (List Nat)) (plen : Nat),
    queue.length + frags.length ≤ fragQueueCap →
    writeToLoop queue plen frags = (queue ++ frags, plen) := by
  intro frags
  induction frags with
  | nil => intro queue plen _; simp [writeToLoop]
  | cons f fs ih =>
    intro queue plen h
    simp only [List.length_cons] at h
    rw [writeToLoop, if_pos (by unfold fragQueueCap at h ⊢; omega)]
    rw [ih (queue ++ [f]) plen (by simpa using by omega)]
    simp

theorem drainFrags_eq : ∀ (n : Nat) (q : List (List Nat)),
    drainFrags n q = ((q.take n).map base64Encode, q.drop n) := by
  intro n
  induction n with
  | zero => intro q; simp [drainFrags]
  | succ m ih =>
    intro q
    cases q with
    | nil => simp [drainFrags]
    | cons f q' => simp [drainFrags, ih q']

end server

theorem lookupKV_nil {κ α : Type} [BEq κ] (k : κ) : lookupKV ([] : List (κ × α)) k = none := rfl

theorem lookupKV_cons_self {κ α : Type} [BEq κ] [LawfulBEq κ] (m : List (κ × α)) (k : κ) (v : α) :
    lookupKV ((k, v) :: m) k = some v := by
  simp [lookupKV, List.find?_cons]

theorem lookupKV_eraseKV {κ α : Type} [BEq κ] (m : List (κ × α)) (k : κ) :
    lookupKV (eraseKV m k) k = none := by
  unfold lookupKV eraseKV
  rw [List.find?_eq_none.mpr]
  · rfl
  · intro x hx
    have hb := (List.mem_filter.mp hx).2
    simp only [Bool.not_eq_true'] at hb
    simp [hb]

theorem insertKV_cons_ne {κ α : Type} [BEq κ] (a : κ × α) (m : List (κ × α)) (k : κ) (v : α)
    (h : (a.1 == k) = false) : insertKV (a :: m) k v = a :: insertKV m k v := by
  unfold insertKV
  rw [List.find?_cons, h]
  by_cases hs : (m.find? (fun p => p.1 == k)).isSome
  · rw [if_pos hs, if_pos hs, List.map_cons, h]
    simp
  · rw [if_neg hs, if_neg hs]
    rfl

theorem lookupKV_insertKV {κ α : Type} [BEq κ] [LawfulBEq κ] (m : List (κ × α)) (k : κ) (v : α) :
    lookupKV (insertKV m k v) k = some v := by
  induction m with
  | nil =>
    simp [insertKV, lookupKV]
  | cons a m ih =>
    by_cases h : (a.1 == k) = true
    · unfold insertKV
      rw [List.find?_cons, h]
      simp only [Option.isSome_some, if_true]
      rw [List.map_cons, if_pos h]
      simp [lookupKV, List.find?_cons]
    · have h' : (a.1 == k) = false := by simpa using h
      rw [insertKV_cons_ne a m k v h']
      unfold lookupKV
      rw [List.find?_cons, h']
      exact ih

theorem insertKV_cons_self {κ α : Type} [BEq κ] [LawfulBEq κ] (m : List (κ × α)) (k : κ) (v w : α) :
    insertKV ((k, v) :: m) k w = (k, w) :: m.map (fun p => if p.1 == k then (k, w) else p) := by
  unfold insertKV
  rw [List.find?_cons]
  simp

namespace protocol

theorem set_map_range {α : Type} (f : Nat → α) (n j : Nat) (v : α) (hj : j < n) :
    ((List.range n).map f).set j v = (List.range n).map (fun i => if i = j then v else f i) := by
  apply List.ext_getElem?
  intro m
  by_cases hm : m < n
  · by_cases hmj : m = j
    · subst hmj
      rw [List.getElem?_set_self (by simpa using hm)]
      simp [List.getElem?_range hm]
    · rw [List.getElem?_set_ne (fun h => hmj h.symm)]
      simp [List.getElem?_range hm, hmj]
  · rw [List.getElem?_set_ne]
    · simp only [List.getElem?_map,
        List.getElem?_eq_none (by simp; omega : (List.range n).length ≤ m)]
      rfl
    · omega

theorem chunksConcat_eq_flatten : ∀ (cs : List (Option (List Nat))) (a : List Nat),
    cs.foldl (fun acc c => acc ++ c.getD []) a = a ++ (cs.map (fun c => c.getD [])).flatten := by
  intro cs
  induction cs with
  | nil => intro a; simp
  | cons c cs ih =>
    intro a
    simp only [List.foldl_cons, List.map_cons, List.flatten_cons]
    rw [ih (a ++ c.getD [])]
    simp

/-- Parsing the header bytes of `chunkFor` recovers `pid`, `n` and `j`. -/
theorem chunkFor_parse (pid n j : Nat) (hpid : pid < 65536) (hn : n ≤ 255) (hj : j < n) :
    (pid / 256 % 256) * 256 + pid % 256 = pid ∧ n % 256 = n ∧ j % 256 = j := by
  omega

theorem ingest_step_incomplete (pid n : Nat) (d : List Nat) (now : Nat) (T : List Nat) (j : Nat)
    (hpid : pid < 65536) (hn : n ≤ 255) (hjn : j < n) (hjT : j ∉ T)
    (hlen : T.length + 1 ≠ n) :
    IngestChunk (stateFor pid n d now T) now (chunkFor pid n d j) =
      .ok (stateFor pid n d now (j :: T), none) := by
  obtain ⟨e1, e2, e3⟩ := chunkFor_parse pid n j hpid hn hjn
  simp only [chunkFor, IngestChunk, stateFor, e1, e2, e3]
  rw [lookupKV_cons_self]
  simp only [lookupKV_nil, Option.isSome_none, Bool.false_eq_true, if_false]
  rw [if_pos hjn]
  simp only [pktFor, List.getElem?_map, List.getElem?_range hjn]
  have emap : Option.map (fun i => if i ∈ T then some (sliceOf d i) else none) (some j) =
      some none := by
    simp [hjT]
  rw [emap]
  simp only [Option.isNone_none, if_true]
  rw [set_map_range _ n j _ hjn]
  simp only [finishIngest]
  rw [insertKV_cons_self]
  simp only [List.map_nil]
  rw [if_neg (by simpa using hlen)]
  have hchunks : ((List.range n).map (fun i =>
      if i = j then some (sliceOf d j) else if i ∈ T then some (sliceOf d i) else none)) =
      (List.range n).map (fun i => if i ∈ j :: T then some (sliceOf d i) else none) := by
    apply List.map_congr_left
    intro i _
    by_cases hij : i = j
    · subst hij
      simp
    · simp only [if_neg hij, List.mem_cons]
      by_cases hiT : i ∈ T
      · rw [if_pos hiT, if_pos (Or.inr hiT)]
      · rw [if_neg hiT, if_neg (by tauto)]
  rw [hchunks]
  rfl

theorem ingest_step_complete (pid n : Nat) (d : List Nat) (now : Nat) (T : List Nat) (j : Nat)
    (hpid : pid < 65536) (hn : n ≤ 255) (hjn : j < n) (hjT : j ∉ T)
    (hTd : T.Nodup) (hTlt : ∀ t ∈ T, t < n) (hlen : T.length + 1 = n)
    (hcov : d.length ≤ n * 124) (hd : d ≠ []) :
    IngestChunk (stateFor pid n d now T) now (chunkFor pid n d j) =
      .ok (⟨[], [(pid, now)]⟩, some d) := by
  obtain ⟨e1, e2, e3⟩ := chunkFor_parse pid n j hpid hn hjn
  simp only [chunkFor, IngestChunk, stateFor, e1, e2, e3]
  rw [lookupKV_cons_self]
  simp only [lookupKV_nil, Option.isSome_none, Bool.false_eq_true, if_false]
  rw [if_pos hjn]
  simp only [pktFor, List.getElem?_map, List.getElem?_range hjn]
  have emap : Option.map (fun i => if i ∈ T then some (sliceOf d i) else none) (some j) =
      some none := by
    simp [hjT]
  rw [emap]
  simp only [Option.isNone_none, if_true]
  rw [set_map_range _ n j _ hjn]
  simp only [finishIngest]
  rw [insertKV_cons_self]
  simp only [List.map_nil]
  rw [if_pos (by simpa using hlen)]
  have hmem : ∀ i, i < n → i ∈ j :: T := by
    have hnodup : (j :: T).Nodup := List.nodup_cons.mpr ⟨hjT, hTd⟩
    have hsub : (j :: T).toFinset ⊆ Finset.range n := by
      intro x hx
      rw [List.mem_toFinset] at hx
      rw [Finset.mem_range]
      rcases List.mem_cons.mp hx with h | h
      · omega
      · exact hTlt x h
    have hcard : Finset.range n ⊆ (j :: T).toFinset := by
      refine Finset.subset_of_eq (Finset.eq_of_subset_of_card_le hsub ?_).symm
      rw [List.toFinset_card_of_nodup hnodup, Finset.card_range]
      simp [hlen]
    intro i hi
    have := hcard (Finset.mem_range.mpr hi)
    exact List.mem_toFinset.mp this
  have hchunks : ((List.range n).map (fun i =>
      if i = j then some (sliceOf d j) else if i ∈ T then some (sliceOf d i) else none)) =
      (List.range n).map (fun i => some (sliceOf d i)) := by
    apply List.map_congr_left
    intro i hi
    rw [List.mem_range] at hi
    by_cases hij : i = j
    · subst hij
      simp
    · rcases List.mem_cons.mp (hmem i hi) with h | h
      · exact absurd h hij
      · rw [if_neg hij, if_pos h]
  rw [hchunks]
  have hfull : chunksConcat ((List.range n).map (fun i => some (sliceOf d i))) = d := by
    unfold chunksConcat
    rw [chunksConcat_eq_flatten _ [], List.nil_append, List.map_map]
    have : ((fun c : Option (List Nat) => c.getD []) ∘ fun i => some (sliceOf d i)) =
        sliceOf d := by
      funext i
      rfl
    rw [this, join_slices, List.take_of_length_le hcov]
  rw [hfull]
  have hne : d.isEmpty = false := by
    cases d with
    | nil => exact absurd rfl hd
    | cons a l => rfl
  rw [hne]
  simp only [Bool.false_eq_true, if_false]
  have hera : eraseKV [(pid, (⟨(List.range n).map (fun i => some (sliceOf d i)), n,
      T.length + 1, now⟩ : PendingPacket))] pid = [] := by
    simp [eraseKV]
  rw [hera]
  rfl

theorem ingest_fresh (pid n : Nat) (d : List Nat) (now : Nat) (j : Nat)
    (hpid : pid < 65536) (hn : n ≤ 255) (hjn : j < n) :
    IngestChunk NewReassembler now (chunkFor pid n d j) =
      IngestChunk (stateFor pid n d now []) now (chunkFor pid n d j) := by
  obtain ⟨e1, e2, e3⟩ := chunkFor_parse pid n j hpid hn hjn
  have hrep : List.replicate n (none : Option (List Nat)) =
      (List.range n).map (fun i => if i ∈ ([] : List Nat) then some (sliceOf d i) else none) := by
    simp
  simp only [chunkFor, IngestChunk, NewReassembler, stateFor, pktFor, e1, e2, e3]
  rw [lookupKV_cons_self]
  simp only [lookupKV_nil, Option.isSome_none, Bool.false_eq_true, if_false]
  simp only [List.length_nil, List.filter_nil, ite_self]
  rw [hrep]
  have hins : insertKV ([] : List (Nat × PendingPacket)) pid
      ⟨(List.range n).map (fun i => if i ∈ ([] : List Nat) then some (sliceOf d i) else none),
        n, 0, now⟩ =
      [(pid, ⟨(List.range n).map (fun i => if i ∈ ([] : List Nat) then some (sliceOf d i)
        else none), n, 0, now⟩)] := by
    simp [insertKV]
  rw [hins]

theorem length_filter_notmem (n : Nat) (T : List Nat) (hTd : T.Nodup)
    (hTlt : ∀ t ∈ T, t < n) :
    ((List.range n).filter (fun i => decide (i ∉ T))).length = n - T.length := by
  have hperm : ((List.range n).filter (fun i => decide (i ∈ T))).Perm T := by
    rw [List.perm_ext_iff_of_nodup ((List.nodup_range n).filter _) hTd]
    intro a
    simp only [List.mem_filter, List.mem_range, decide_eq_true_eq]
    exact ⟨fun h => h.2, fun h => ⟨hTlt a h, h⟩⟩
  have hlen1 : ((List.range n).filter (fun i => decide (i ∈ T))).length = T.length :=
    hperm.length_eq
  have hsum := List.length_eq_length_filter_add (l := List.range n) (fun i => decide (i ∈ T))
  rw [List.length_range, hlen1] at hsum
  have hfc : ((List.range n).filter (fun i => decide (i ∉ T))) =
      ((List.range n).filter (fun i => !decide (i ∈ T))) := by
    apply List.filter_congr
    intro i _
    simp
  rw [hfc]
  omega

theorem decide_notmem_cons (j : Nat) (T : List Nat) :
    ∀ i, decide (i ∉ j :: T) = (decide (i ∉ T) && (i != j)) := by
  intro i
  by_cases h1 : i = j
  · subst h1
    simp
  · by_cases h2 : i ∈ T <;> simp [h1, h2]

theorem erase_filter_notmem (n : Nat) (T : List Nat) (j : Nat) :
    ((List.range n).filter (fun i => decide (i ∉ T))).erase j =
      (List.range n).filter (fun i => decide (i ∉ j :: T)) := by
  rw [List.Nodup.erase_eq_filter ((List.nodup_range n).filter _) j, List.filter_filter]
  apply List.filter_congr
  intro i _
  rw [decide_notmem_cons, Bool.and_comm]

theorem ingest_run (pid n : Nat) (d : List Nat) (now : Nat)
    (hpid : pid < 65536) (hn : n ≤ 255) (hcov : d.length ≤ n * 124) (hd : d ≠ []) :
    ∀ (js T : List Nat), T.Nodup → (∀ t ∈ T, t < n) → T.length < n →
    js.Perm ((List.range n).filter (fun i => decide (i ∉ T))) →
    ingestAll (stateFor pid n d now T) now (js.map (chunkFor pid n d)) =
      .ok (⟨[], [(pid, now)]⟩, List.replicate (js.length - 1) none ++ [some d]) := by
  intro js
  induction js with
  | nil =>
    intro T hTd hTlt hTn hperm
    exfalso
    have h0 : ((List.range n).filter (fun i => decide (i ∉ T))).length = 0 :=
      (hperm.length_eq).symm.trans rfl
    rw [length_filter_notmem n T hTd hTlt] at h0
    omega
  | cons j js' ih =>
    intro T hTd hTlt hTn hperm
    have hjmem : j ∈ (List.range n).filter (fun i => decide (i ∉ T)) :=
      hperm.mem_iff.mp (List.mem_cons_self j js')
    rw [List.mem_filter, List.mem_range] at hjmem
    obtain ⟨hjn, hjT'⟩ := hjmem
    have hjT : j ∉ T := by simpa using hjT'
    have hbound : ∀ t ∈ j :: T, t < n := by
      intro t ht
      rcases List.mem_cons.mp ht with h | h
      · omega
      · exact hTlt t h
    have hperm' : js'.Perm ((List.range n).filter (fun i => decide (i ∉ j :: T))) := by
      rw [← erase_filter_notmem]
      exact (List.cons_perm_iff_perm_erase.mp hperm).2
    have hlen' : js'.length = n - (T.length + 1) := by
      rw [hperm'.length_eq, length_filter_notmem n (j :: T)
        (List.nodup_cons.mpr ⟨hjT, hTd⟩) hbound]
      simp
    by_cases hfin : T.length + 1 = n
    · have hjs' : js' = [] := by
        rw [← List.length_eq_zero]
        omega
      subst hjs'
      simp only [List.map_cons, List.map_nil, ingestAll]
      rw [ingest_step_complete pid n d now T j hpid hn hjn hjT hTd hTlt hfin hcov hd]
      dsimp only [ingestAll]
      rfl
    · simp only [List.map_cons, ingestAll]
      rw [ingest_step_incomplete pid n d now T j hpid hn hjn hjT hfin]
      dsimp only
      rw [ih (j :: T) (List.nodup_cons.mpr ⟨hjT, hTd⟩) hbound
        (by simp; omega) hperm']
      have hpos : 1 ≤ js'.length := by omega
      have : List.replicate (js'.length + 1 - 1) (none : Option (List Nat)) =
          none :: List.replicate (js'.length - 1) none := by
        rw [Nat.add_sub_cancel]
        cases hj : js'.length with
        | zero => omega
        | succ m => simp [List.replicate_succ]
      simp only [List.length_cons, this]
      rfl

end protocol

/-! ### The claims -/

/-- C1: the spec demands that `IngestChunk` never faults — an oversized
`total`, stale `packet_id` or stray `seq` drops the chunk with no error.
The code violates this: with a pending packet created with total 2
(after ingesting packet 1, total 2, seq 0), a chunk for the same packet id
declaring total 3 and seq 2 makes both reassemblers index `pkt.Chunks[2]`
in an array of length 2 — a Go index-out-of-range panic, modelled as
`Except.error ()`.  This theorem evaluates both reassemblers at that
failing input. -/
theorem C1_oversized_total_faults :
    protocol.IngestChunk protocol.NewReassembler 0 [0, 1, 2, 0, 9] =
      .ok (⟨[(1, ⟨[some [9], none], 2, 1, 0⟩)], []⟩, none) ∧
    protocol.IngestChunk ⟨[(1, ⟨[some [9], none], 2, 1, 0⟩)], []⟩ 0 [0, 1, 3, 2] = .error () ∧
    server.IngestChunk server.NewReassembler 0 [0, 1, 2, 0, 9] =
      .ok (⟨[(1, ⟨[some [9], none], 2, 1, 0⟩)]⟩, none) ∧
    server.IngestChunk ⟨[(1, ⟨[some [9], none], 2, 1, 0⟩)]⟩ 0 [0, 1, 3, 2] = .error () :=
  ⟨rfl, rfl, rfl, rfl⟩

/-- C2 counterexample: the claim says a datagram longer than
`255 * MAX_CHUNK = 31620` bytes is rejected and no chunks are emitted.
On a 31621-byte datagram `FragmentPacket` instead emits 255 chunks. -/
theorem C2_counterexample :
    (protocol.FragmentPacket 0 (List.replicate 31621 0)).length = 255 := by
  rw [protocol.length_FragmentPacket, List.length_replicate]
  norm_num

/-- C2 (amended): for every datagram longer than `255 * MAX_CHUNK` bytes,
`FragmentPacket` does not fail; it clamps the chunk count to 255 and the
emitted chunk payloads carry exactly the first 31620 bytes — the tail is
silently dropped. -/
theorem C2_large_datagram_truncated (pid : Nat) (d : List Nat) (h : 31620 < d.length) :
    (protocol.FragmentPacket pid d).length = 255 ∧
    ((protocol.FragmentPacket pid d).map (fun c => c.drop 4)).flatten = d.take 31620 := by
  constructor
  · rw [protocol.length_FragmentPacket, if_pos (by omega)]
  · rw [protocol.FragmentPacket_eq_clamp pid d h, List.map_map]
    have hcomp : ((fun c => List.drop 4 c) ∘ protocol.chunkFor pid 255 d) =
        protocol.sliceOf d := by
      funext j
      rfl
    rw [hcomp, protocol.join_slices]

/-- C2 witness: the amended claim instantiated at a 31621-byte datagram. -/
theorem C2_witness :
    31620 < (List.replicate 31621 (0 : Nat)).length ∧
    ((protocol.FragmentPacket 0 (List.replicate 31621 0)).length = 255 ∧
      ((protocol.FragmentPacket 0 (List.replicate 31621 0)).map (fun c => c.drop 4)).flatten =
        (List.replicate 31621 (0 : Nat)).take 31620) :=
  ⟨by rw [List.length_replicate]; norm_num,
   C2_large_datagram_truncated 0 (List.replicate 31621 0)
     (by rw [List.length_replicate]; norm_num)⟩

/-- C3: round trip under reordering.  For every datagram `d` with
`|d| ≤ 255 * MAX_CHUNK` and every permutation `l` of `FragmentPacket(d)`,
ingesting the chunks of `l` one at a time into a fresh protocol
`Reassembler` returns `nil` from every call but the last, whose return is
exactly `d`; for `|d| = 0` there are no chunks and nothing is emitted
(the `if` branch). -/
theorem C3_roundtrip_reordered (pid : Nat) (d : List Nat) (now : Nat) (hpid : pid < 65536)
    (hd : d.length ≤ 31620) (l : List (List Nat))
    (hl : l.Perm (protocol.FragmentPacket pid d)) :
    ∃ r', protocol.ingestAll protocol.NewReassembler now l =
      .ok (r', if d.length = 0 then [] else
        List.replicate (l.length - 1) none ++ [some d]) := by
  by_cases h0 : d.length = 0
  · have hdnil : d = [] := List.length_eq_zero.mp h0
    subst hdnil
    have hlnil : l = [] := List.perm_nil.mp hl
    subst hlnil
    exact ⟨protocol.NewReassembler, by simp [protocol.ingestAll]⟩
  · have hd0 : d ≠ [] := fun h => h0 (by simp [h])
    have hn_def : protocol.numChunks d = (d.length + 123) / 124 := by
      unfold protocol.numChunks protocol.MaxChunkSize
      omega
    have hn1 : 1 ≤ protocol.numChunks d := by omega
    have hn : protocol.numChunks d ≤ 255 := by omega
    have hcov : d.length ≤ protocol.numChunks d * 124 := by omega
    rw [protocol.FragmentPacket_eq_noclamp pid d hd] at hl
    have hseq : ∀ i, i < protocol.numChunks d →
        protocol.seqOf (protocol.chunkFor pid (protocol.numChunks d) d i) = i := by
      intro i hi
      show i % 256 = i
      omega
    have hjs_perm : (l.map protocol.seqOf).Perm (List.range (protocol.numChunks d)) := by
      have h1 := hl.map protocol.seqOf
      rw [List.map_map] at h1
      have h2 : (List.range (protocol.numChunks d)).map
          (protocol.seqOf ∘ protocol.chunkFor pid (protocol.numChunks d) d) =
          List.range (protocol.numChunks d) := by
        conv_rhs => rw [← List.map_id (List.range (protocol.numChunks d))]
        apply List.map_congr_left
        intro i hi
        exact hseq i (List.mem_range.mp hi)
      rw [h2] at h1
      exact h1
    have hl_eq : l = (l.map protocol.seqOf).map
        (protocol.chunkFor pid (protocol.numChunks d) d) := by
      rw [List.map_map]
      have hc : ∀ c ∈ l,
          protocol.chunkFor pid (protocol.numChunks d) d (protocol.seqOf c) = c := by
        intro c hc
        have hc' : c ∈ (List.range (protocol.numChunks d)).map
            (protocol.chunkFor pid (protocol.numChunks d) d) := hl.subset hc
        obtain ⟨i, hi, rfl⟩ := List.mem_map.mp hc'
        rw [hseq i (List.mem_range.mp hi)]
      conv_lhs => rw [← List.map_id l]
      exact (List.map_congr_left (fun c hcl => (hc c hcl).symm))
    have hjs_len : (l.map protocol.seqOf).length = protocol.numChunks d :=
      hjs_perm.length_eq.trans (List.length_range (protocol.numChunks d))
    cases hjs : l.map protocol.seqOf with
    | nil =>
      rw [hjs] at hjs_len
      simp at hjs_len
      omega
    | cons j js' =>
      rw [hjs] at hjs_perm
      have hjn : j < protocol.numChunks d :=
        List.mem_range.mp (hjs_perm.mem_iff.mp (List.mem_cons_self j js'))
      have hfilter : (List.range (protocol.numChunks d)).filter
          (fun i => decide (i ∉ ([] : List Nat))) = List.range (protocol.numChunks d) := by
        simp
      have key := protocol.ingest_run pid (protocol.numChunks d) d now hpid hn hcov hd0
        (j :: js') [] List.nodup_nil (by simp) (by simp; omega)
        (by rw [hfilter]; exact hjs_perm)
      have hfresh : protocol.ingestAll protocol.NewReassembler now
          ((j :: js').map (protocol.chunkFor pid (protocol.numChunks d) d)) =
          protocol.ingestAll (protocol.stateFor pid (protocol.numChunks d) d now []) now
            ((j :: js').map (protocol.chunkFor pid (protocol.numChunks d) d)) := by
        simp only [List.map_cons, protocol.ingestAll]
        rw [protocol.ingest_fresh pid (protocol.numChunks d) d now j hpid hn hjn]
      have hllen : l.length = js'.length + 1 := by
        have := congrArg List.length hjs
        simpa using this
      refine ⟨⟨[], [(pid, now)]⟩, ?_⟩
      rw [if_neg h0]
      conv_lhs => rw [hl_eq, hjs]
      rw [hfresh, key]
      rw [hllen]
      simp

/-- C3 witness: a 200-byte datagram fragments into two chunks; ingesting
them in reversed order emits the datagram on the second call. -/
theorem C3_witness :
    (258 : Nat) < 65536 ∧ (List.replicate 200 (7 : Nat)).length ≤ 31620 ∧
    (∃ r', protocol.ingestAll protocol.NewReassembler 0
        ((protocol.FragmentPacket 258 (List.replicate 200 7)).reverse) =
      .ok (r', if (List.replicate 200 (7 : Nat)).length = 0 then [] else
        List.replicate
          ((protocol.FragmentPacket 258 (List.replicate 200 7)).reverse.length - 1) none ++
          [some (List.replicate 200 7)])) :=
  ⟨by norm_num, by rw [List.length_replicate]; norm_num,
   C3_roundtrip_reordered 258 (List.replicate 200 7) 0 (by norm_num)
     (by rw [List.length_replicate]; norm_num)
     ((protocol.FragmentPacket 258 (List.replicate 200 7)).reverse) (List.reverse_perm _)⟩

/-- C4 counterexample: the claim extends post-completion duplicate
suppression to the server-side per-session reassembler, which has no
completed set.  After chunk `[0,1,1,0,5]` (packet 1, total 1, seq 0)
completes and emits `[5]`, replaying the very same chunk re-opens a fresh
`PendingPacket` and emits `[5]` a second time instead of returning none. -/
theorem C4_counterexample :
    server.IngestChunk server.NewReassembler 0 [0, 1, 1, 0, 5] = .ok (⟨[]⟩, some [5]) ∧
    server.IngestChunk ⟨[]⟩ 5 [0, 1, 1, 0, 5] = .ok (⟨[]⟩, some [5]) :=
  ⟨rfl, rfl⟩

/-- C4 (amended): for the protocol-side `Reassembler` the claim holds —
any chunk whose packet id sits in the completed set (here within
`DUP_WINDOW`, i.e. completed at most 30 s ago) is dropped: the call
returns none and the whole reassembler state is left unchanged, so no
new `PendingPacket` appears.  The server-side per-session reassembler has
no completed set and re-opens a fresh pending packet (see the
counterexample). -/
theorem C4_protocol_completed_suppression (r : protocol.Reassembler)
    (now b0 b1 b2 b3 : Nat) (rest : List Nat) (t0 : Nat)
    (hc : lookupKV r.completed (b0 * 256 + b1) = some t0) (_hw : now - t0 ≤ 30) :
    protocol.IngestChunk r now (b0 :: b1 :: b2 :: b3 :: rest) = .ok (r, none) := by
  simp only [protocol.IngestChunk]
  rw [hc]
  rfl

/-- C4 witness: packet id 1 completed at time 0; a replay of one of its
chunks at time 5 is dropped with the state untouched. -/
theorem C4_witness :
    lookupKV (protocol.Reassembler.mk [] [(1, 0)]).completed (0 * 256 + 1) = some 0 ∧
    5 - 0 ≤ 30 ∧
    protocol.IngestChunk ⟨[], [(1, 0)]⟩ 5 (0 :: 1 :: 1 :: 0 :: [9]) =
      .ok (⟨[], [(1, 0)]⟩, none) :=
  ⟨rfl, by norm_num,
   C4_protocol_completed_suppression ⟨[], [(1, 0)]⟩ 5 0 1 1 0 [9] 0 rfl (by norm_num)⟩

/-- C5 counterexample: the claim says a downstream datagram of at least
1000 bytes has each fragment enqueued twice.  A 1000-byte datagram
fragments into 9 chunks, and `WriteTo` leaves the session queue holding
exactly those 9 fragments — one copy each, not 18. -/
theorem C5_counterexample :
    server.VirtualConnWriteTo [] 0 (List.replicate 1000 7) =
      (protocol.FragmentPacket 0 (List.replicate 1000 7), 1000) ∧
    (protocol.FragmentPacket 0 (List.replicate 1000 7)).length = 9 := by
  have hlen : (protocol.FragmentPacket 0 (List.replicate 1000 (7 : Nat))).length = 9 := by
    rw [protocol.length_FragmentPacket, List.length_replicate]
    norm_num
  refine ⟨?_, hlen⟩
  unfold server.VirtualConnWriteTo
  rw [server.writeToLoop_all _ [] _ (by rw [List.length_nil, hlen]; norm_num [server.fragQueueCap])]
  rw [List.nil_append, List.length_replicate]

/-- C5 (amended): the server's `VirtualConn.WriteTo` enqueues every
fragment of the datagram exactly once into the session's `frag_queue`,
regardless of the datagram's size — there is no handshake-redundancy
doubling on the server side.  (When the queue has room for all fragments;
a full queue drops the remainder and reports 0.) -/
theorem C5_fragments_enqueued_once (queue : List (List Nat)) (pid : Nat) (p : List Nat)
    (h : queue.length + (protocol.FragmentPacket pid p).length ≤ server.fragQueueCap) :
    server.VirtualConnWriteTo queue pid p =
      (queue ++ protocol.FragmentPacket pid p, p.length) :=
  server.writeToLoop_all _ _ _ h

/-- C5 witness: the amended claim instantiated at an empty queue and a
1000-byte datagram (at or above the 1000-byte handshake threshold). -/
theorem C5_witness :
    ([] : List (List Nat)).length +
      (protocol.FragmentPacket 0 (List.replicate 1000 7)).length ≤ server.fragQueueCap ∧
    server.VirtualConnWriteTo [] 0 (List.replicate 1000 7) =
      ([] ++ protocol.FragmentPacket 0 (List.replicate 1000 7),
        (List.replicate 1000 (7 : Nat)).length) :=
  ⟨by rw [List.length_nil, protocol.length_FragmentPacket, List.length_replicate]
      norm_num [server.fragQueueCap],
   C5_fragments_enqueued_once [] 0 (List.replicate 1000 7)
     (by rw [List.length_nil, protocol.length_FragmentPacket, List.length_replicate]
         norm_num [server.fragQueueCap])⟩

/-- C6 counterexample: the claim says every query whose lower-cased QNAME
lacks a registered-domain suffix is answered with REFUSED.  A two-label
query for an unregistered domain (`evil.example.`) is instead silently
dropped — the handler returns before the domain check and writes no
reply at all. -/
theorem C6_counterexample :
    server.HandleDNS ["n.example.com"] 5 [] 1 "evil.example." 0 = .ok ⟨[], none, []⟩ :=
  rfl

/-- C6 (amended): for a query with at least one question whose lower-cased
QNAME matches no registered domain (neither whole-name equality nor a
label-boundary suffix), no session state is created or touched, and the
reply is REFUSED when the QNAME has at least 3 labels — queries with
fewer than 3 labels are silently dropped with no reply. -/
theorem C6_unregistered_domain_refused (allowed : List String) (mf : Nat)
    (sessions : List (String × server.SessSt)) (qName : String) (now qc : Nat)
    (hqc : 1 ≤ qc)
    (hnm : ∀ dom ∈ allowed,
      ¬(strEndsW (lowerStr qName) ("." ++ lowerStr dom ++ ".") = true ∨
        lowerStr qName = lowerStr dom ++ ".")) :
    server.HandleDNS allowed mf sessions qc qName now =
      .ok ⟨sessions, if 3 ≤ (splitDomainName qName).length then some ⟨5, []⟩ else none, []⟩ := by
  have hfind : allowed.find? (fun dom =>
      strEndsW (lowerStr qName) ("." ++ lowerStr dom ++ ".") ||
        lowerStr qName == lowerStr dom ++ ".") = none := by
    rw [List.find?_eq_none]
    intro dom hdom
    have h2 := hnm dom hdom
    push_neg at h2
    simp [h2.1, h2.2]
  simp only [server.HandleDNS]
  rw [if_neg (by omega)]
  by_cases h3 : (splitDomainName qName).length < 3
  · rw [if_pos h3, if_neg (by omega)]
  · rw [if_neg h3, hfind,
      if_pos (show 3 ≤ (splitDomainName qName).length by omega)]

/-- C6 witness: the spec's own scenario — `X.sess.evil.example.net.`
against `allowed_domains = ["n.example.com"]` draws REFUSED with the
session map untouched. -/
theorem C6_witness :
    1 ≤ 1 ∧
    (∀ dom ∈ (["n.example.com"] : List String),
      ¬(strEndsW (lowerStr "X.sess.evil.example.net.") ("." ++ lowerStr dom ++ ".") = true ∨
        lowerStr "X.sess.evil.example.net." = lowerStr dom ++ ".")) ∧
    server.HandleDNS ["n.example.com"] 5 [] 1 "X.sess.evil.example.net." 0 =
      .ok ⟨[], if 3 ≤ (splitDomainName "X.sess.evil.example.net.").length then
        some ⟨5, []⟩ else none, []⟩ :=
  ⟨le_refl 1, by decide,
   C6_unregistered_domain_refused ["n.example.com"] 5 [] "X.sess.evil.example.net." 0 1
     (le_refl 1) (by decide)⟩

/-- C7 counterexample: the claim says any message whose question count
differs from 1 is ignored outright.  A two-question message whose first
question is a poll for a registered domain is instead fully processed:
a session is created and a NOERROR reply is written. -/
theorem C7_counterexample :
    server.HandleDNS ["n.example.com"] 5 [] 2 "poll.aaaaaaa.abcd1234.n.example.com." 0 =
      .ok ⟨[("abcd1234", server.freshSession)], some ⟨0, []⟩, []⟩ :=
  rfl

/-- C7 (amended): the handler ignores only messages with zero questions;
any message with one or more questions is processed identically using its
first question (the question count plays no further part). -/
theorem C7_zero_questions_only_ignored (allowed : List String) (mf : Nat)
    (sessions : List (String × server.SessSt)) (qName : String) (now c : Nat)
    (hc : 1 ≤ c) :
    server.HandleDNS allowed mf sessions c qName now =
      server.HandleDNS allowed mf sessions 1 qName now ∧
    server.HandleDNS allowed mf sessions 0 qName now = .ok ⟨sessions, none, []⟩ := by
  constructor
  · simp only [server.HandleDNS,
      if_neg (show ¬(c = 0) by omega), if_neg (show ¬((1 : Nat) = 0) by omega)]
  · simp [server.HandleDNS]

/-- C7 witness: a two-question message is handled exactly like a
one-question message, and a zero-question message is a no-op. -/
theorem C7_witness :
    1 ≤ 2 ∧
    (server.HandleDNS ["n.example.com"] 5 [] 2 "poll.aaaaaaa.abcd1234.n.example.com." 0 =
      server.HandleDNS ["n.example.com"] 5 [] 1 "poll.aaaaaaa.abcd1234.n.example.com." 0 ∧
    server.HandleDNS ["n.example.com"] 5 [] 0 "poll.aaaaaaa.abcd1234.n.example.com." 0 =
      .ok ⟨[], none, []⟩) :=
  ⟨by norm_num,
   C7_zero_questions_only_ignored ["n.example.com"] 5 []
     "poll.aaaaaaa.abcd1234.n.example.com." 0 2 (by norm_num)⟩

/-- C8: for a handled poll query for a known domain, the reply is NOERROR
and carries exactly `min(max_frags, |frag_queue|)` TXT answers, dequeued
from the session's queue in FIFO order, each answer the base64 encoding of
one dequeued chunk; the dequeued chunks leave the queue.  With an empty
queue the reply is NOERROR with zero answers.  (Quantified over the queue
contents and a positive `max_frags`; the query and session names are the
spec's concrete scenario.) -/
theorem C8_drain_min_fifo (q : List (List Nat)) (mf : Nat) (hmf : 0 < mf) (now : Nat) :
    server.HandleDNS ["n.example.com"] mf [("abcd1234", ⟨server.NewReassembler, q⟩)] 1
      "poll.aaaaaaa.abcd1234.n.example.com." now =
      .ok ⟨[("abcd1234", ⟨server.NewReassembler, q.drop mf⟩)],
           some ⟨0, (q.take mf).map base64Encode⟩, []⟩ ∧
    ((q.take mf).map base64Encode).length = min mf q.length := by
  constructor
  · have hfind : (["n.example.com"] : List String).find? (fun dom =>
        strEndsW (lowerStr "poll.aaaaaaa.abcd1234.n.example.com.") ("." ++ lowerStr dom ++ ".") ||
          lowerStr "poll.aaaaaaa.abcd1234.n.example.com." == lowerStr dom ++ ".") =
        some "n.example.com" := rfl
    have hlab : splitDomainName "poll.aaaaaaa.abcd1234.n.example.com." =
        ["poll", "aaaaaaa", "abcd1234", "n", "example", "com"] := rfl
    have hdlab : splitDomainName "n.example.com" = ["n", "example", "com"] := rfl
    have hsid : lowerStr ((["poll", "aaaaaaa", "abcd1234", "n", "example", "com"]).getD
        ((["poll", "aaaaaaa", "abcd1234", "n", "example", "com"]).length -
          (["n", "example", "com"] : List String).length - 1) "") = "abcd1234" := rfl
    have hgo : server.getOrCreate [("abcd1234", (⟨server.NewReassembler, q⟩ : server.SessSt))]
        "abcd1234" = (⟨server.NewReassembler, q⟩,
          [("abcd1234", ⟨server.NewReassembler, q⟩)]) := by
      unfold server.getOrCreate
      rw [lookupKV_cons_self]
    have hpoll : (!strStartsW (lowerStr (joinStr
        ((["poll", "aaaaaaa", "abcd1234", "n", "example", "com"]).take
          ((["poll", "aaaaaaa", "abcd1234", "n", "example", "com"]).length -
            (["n", "example", "com"] : List String).length - 1)))) "poll") = false := rfl
    have hins : ∀ v : server.SessSt,
        insertKV [("abcd1234", (⟨server.NewReassembler, q⟩ : server.SessSt))] "abcd1234" v =
          [("abcd1234", v)] := by
      intro v
      simp [insertKV, List.find?]
    simp only [server.HandleDNS, hfind, hlab, hdlab, hsid, hgo, hpoll, hins]
    rw [if_neg (show ¬((1 : Nat) = 0) by omega)]
    rw [if_neg (show ¬((["poll", "aaaaaaa", "abcd1234", "n", "example", "com"] :
      List String).length < 3) by norm_num)]
    rw [if_neg (show ¬((["poll", "aaaaaaa", "abcd1234", "n", "example", "com"] :
      List String).length < 2 + (["n", "example", "com"] : List String).length) by norm_num)]
    simp only [Bool.false_eq_true, if_false]
    rw [if_neg (show ¬(mf = 0) by omega)]
    rw [server.drainFrags_eq]
  · rw [List.length_map, List.length_take]

/-- C8 witness: the spec's concrete scenario — 8 queued chunks and
`max_frags = 5` yield exactly 5 TXT answers and leave 3 chunks queued. -/
theorem C8_witness :
    0 < 5 ∧
    server.HandleDNS ["n.example.com"] 5
      [("abcd1234", ⟨server.NewReassembler, [[1], [2], [3], [4], [5], [6], [7], [8]]⟩)] 1
      "poll.aaaaaaa.abcd1234.n.example.com." 0 =
      .ok ⟨[("abcd1234", ⟨server.NewReassembler,
            ([[1], [2], [3], [4], [5], [6], [7], [8]] : List (List Nat)).drop 5⟩)],
           some ⟨0, (([[1], [2], [3], [4], [5], [6], [7], [8]] : List (List Nat)).take 5).map
             base64Encode⟩, []⟩ :=
  ⟨by norm_num,
   (C8_drain_min_fifo [[1], [2], [3], [4], [5], [6], [7], [8]] 5 (by norm_num) 0).1⟩

/-- C9 counterexample: the claim says every `sendPoll` emits
`poll.<nonce>.<session_id>.<domain>.`; the sibling copy of the client
adapter emits `poll.<session_id>.<domain>.` — the label right after
`poll` is already the session id, so no nonce label exists. -/
theorem C9_counterexample :
    splitDomainName (protocol.sendPollQnameAlt "abcd1234" "n.example.com") =
      ["poll", "abcd1234", "n", "example", "com"] ∧
    (splitDomainName (protocol.sendPollQnameAlt "abcd1234" "n.example.com")).getD 1 "" =
      "abcd1234" :=
  ⟨rfl, rfl⟩

/-- C9 (amended): the primary client `sendPoll` emits
`poll.<nonce>.<session_id>.<domain>.` where the nonce label is the
unpadded base32 encoding of the 4 big-endian bytes of a random 32-bit
value — always 7 alphabet characters, never containing a dot, hence one
whole label sitting between `poll` and the session label.  The sibling
copy emits no nonce label (see the counterexample). -/
theorem C9_primary_sendPoll_nonce (x : Nat) (sessionID domain : String) :
    protocol.sendPollQname x sessionID domain =
      "poll." ++ base32EncodeNoPad (protocol.nonceBytes x) ++ "." ++ sessionID ++ "." ++
        domain ++ "." ∧
    (base32EncodeNoPad (protocol.nonceBytes x)).length = 7 ∧
    ∀ c ∈ (base32EncodeNoPad (protocol.nonceBytes x)).toList, c ≠ '.' := by
  refine ⟨rfl, ?_, ?_⟩
  · show (base32EncodeNoPadL (protocol.nonceBytes x)).length = 7
    simp [protocol.nonceBytes, base32EncodeNoPadL, b32EncGroup]
  · have hdot : ∀ v : Nat, b32Char v ≠ '.' := by
      intro v
      unfold b32Char b32Alphabet
      by_cases h : v < 32
      · interval_cases v <;> decide
      · rw [List.getD_eq_default]
        · decide
        · have h32 : ("ABCDEFGHIJKLMNOPQRSTUVWXYZ234567".toList).length = 32 := rfl
          omega
    intro c hc
    have hc' : c ∈ base32EncodeNoPadL (protocol.nonceBytes x) := hc
    simp only [protocol.nonceBytes, base32EncodeNoPadL, b32EncGroup, List.mem_map,
      List.mem_range] at hc'
    obtain ⟨i, hi, hceq⟩ := hc'
    rw [← hceq]
    exact hdot _

/-- C10: an implicit edge case of the protocol reassembler.  For any
4-byte-or-longer chunk whose header declares `total = 0` and whose packet
id is neither pending nor completed, `IngestChunk` treats the packet as
immediately complete: it returns nil (no datagram is emitted — the Go nil
return), records the packet id in the completed set with the current
time (suppressing that id's chunks for the duplicate window), and leaves
no pending entry for it. -/
theorem C10_total_zero_completes (r : protocol.Reassembler) (now b0 b1 b3 : Nat)
    (rest : List Nat)
    (hp : lookupKV r.pending (b0 * 256 + b1) = none)
    (hcm : lookupKV r.completed (b0 * 256 + b1) = none) :
    ∃ r', protocol.IngestChunk r now (b0 :: b1 :: 0 :: b3 :: rest) = .ok (r', none) ∧
      lookupKV r'.completed (b0 * 256 + b1) = some now ∧
      lookupKV r'.pending (b0 * 256 + b1) = none := by
  refine ⟨⟨eraseKV (insertKV (insertKV (if r.pending.length > 1000 then [] else r.pending)
      (b0 * 256 + b1) ⟨[], 0, 0, now⟩) (b0 * 256 + b1) ⟨[], 0, 0, now⟩) (b0 * 256 + b1),
    insertKV (r.completed.filter (fun e => !(decide (now - e.2 > 30)))) (b0 * 256 + b1) now⟩,
    ?_, ?_, ?_⟩
  · simp only [protocol.IngestChunk]
    rw [hcm, hp]
    simp only [Option.isSome_none, Bool.false_eq_true, if_false]
    rw [if_neg (by omega)]
    simp [protocol.finishIngest, protocol.chunksConcat]
  · exact lookupKV_insertKV _ _ _
  · exact lookupKV_eraseKV _ _

/-- C10 witness: chunk `[0,1,0,0]` (packet 1, total 0) into a fresh
reassembler: nil is returned, packet 1 lands in the completed set and is
absent from the pending map. -/
theorem C10_witness :
    lookupKV (protocol.NewReassembler).pending (0 * 256 + 1) = none ∧
    lookupKV (protocol.NewReassembler).completed (0 * 256 + 1) = none ∧
    (∃ r', protocol.IngestChunk protocol.NewReassembler 0 (0 :: 1 :: 0 :: 0 :: []) =
        .ok (r', none) ∧
      lookupKV r'.completed (0 * 256 + 1) = some 0 ∧
      lookupKV r'.pending (0 * 256 + 1) = none) :=
  ⟨rfl, rfl, C10_total_zero_completes protocol.NewReassembler 0 0 1 0 [] rfl rfl⟩
